import Mathlib

/-!
# Verification of the Graham stock-valuation script (`src/Graham.py`)

A shallow embedding of the script's numeric and control logic.

Python `decimal.Decimal` values are modelled as rational numbers `ℚ`.
The script never changes the default decimal context, so every
arithmetic operation (`+`, `*`, `/`) is correctly rounded to 28
significant digits with the ROUND_HALF_EVEN rule; `roundDec` below
implements that rounding on `ℚ` and `decAdd`/`decMul`/`decDiv` are the
context operations.  The `Decimal` string constructor is exact
(arbitrary precision) and is modelled by `decimalOfChars`.  Overflow
and subnormal behaviour (`Emax`/`Emin` of the default context, at
exponent magnitude about a million) and the special values
`NaN`/`Infinity` are outside the magnitudes and formats this program
can produce from its inputs and are not modelled.
-/

set_option maxHeartbeats 1000000
set_option maxRecDepth 100000

/-- Severity of a log record, as used by the script (`logging.info`
versus `logging.error`). -/
inductive LogLevel
  | info
  | error
deriving DecidableEq

/-- One record written to the run-scoped log file. -/
structure LogEvent where
  level : LogLevel
  msg : String
deriving DecidableEq

/-! ## Decimal context arithmetic (28 significant digits, half-even) -/

/-- Little-endian base-10 digits of `n`, with explicit fuel so that the
recursion is structural and kernel-reducible. -/
def digitsAux : ℕ → ℕ → List ℕ
  | 0, _ => []
  | fuel + 1, n => if n = 0 then [] else n % 10 :: digitsAux fuel (n / 10)

/-- Little-endian base-10 digits of `n` (`[]` for `0`). -/
def decDigits (n : ℕ) : List ℕ := digitsAux (n + 1) n

/-- Number of decimal digits of `n` (`0` for `0`). -/
def digitsLen (n : ℕ) : ℕ := (decDigits n).length

/-- Floor of a rational, via flooring integer division (avoids any
typeclass indirection so that kernel evaluation is direct). -/
def ratFloor (x : ℚ) : ℤ := Int.fdiv x.num (x.den : ℤ)

/-- Round a rational to the nearest integer, ties to even
(`ROUND_HALF_EVEN`, the default decimal rounding mode). -/
def roundHalfEven (x : ℚ) : ℤ :=
  let f := ratFloor x
  let r : ℚ := x - (f : ℚ)
  if r < 1/2 then f
  else if (1/2 : ℚ) < r then f + 1
  else if f % 2 = 0 then f else f + 1

/-- For `q > 0`, the integer `e` with `10^e ≤ q < 10^(e+1)` (the
adjusted exponent of the decimal representation of `q`). -/
def sigExp (q : ℚ) : ℤ :=
  let n := q.num.natAbs
  let d := q.den
  let c : ℤ := (digitsLen n : ℤ) - (digitsLen d : ℤ)
  if 0 ≤ c then (if d * 10 ^ c.toNat ≤ n then c else c - 1)
  else (if d ≤ n * 10 ^ (-c).toNat then c else c - 1)

/-- Correct rounding of a rational to 28 significant decimal digits,
ties to even: the rounding the default decimal context applies to
every arithmetic result.  A value already representable in at most 28
significant digits is returned unchanged. -/
def roundDec (q : ℚ) : ℚ :=
  if q = 0 then 0
  else
    let e : ℤ := sigExp |q| - 27
    let scaled : ℚ := |q| * (10 : ℚ) ^ (-e)
    (if q < 0 then (-1 : ℚ) else 1) * (roundHalfEven scaled : ℚ) * (10 : ℚ) ^ e

/-- Decimal context addition: exact sum, rounded to context precision. -/
def decAdd (a b : ℚ) : ℚ := roundDec (a + b)

/-- Decimal context multiplication: exact product, rounded to context
precision. -/
def decMul (a b : ℚ) : ℚ := roundDec (a * b)

/-- Decimal context division (for nonzero divisor): correctly rounded
quotient.  A zero divisor raises in Python; callers model that case
separately and never evaluate `decDiv` there. -/
def decDiv (a b : ℚ) : ℚ := roundDec (a / b)

/-! ## The Valuation Engine: `calculate_intrinsic_value` -/

/-- Outcome of `calculate_intrinsic_value`: a Python function call can
raise `decimal.DivisionByZero`, return `None`, or return a `Decimal`. -/
inductive CalcOutcome
  | raised
  | noValue
  | value (v : ℚ)
deriving DecidableEq

/-- Model of `calculate_intrinsic_value(eps, g, y)` (`src/Graham.py`
lines 89-109), paired with the log records it writes.  The guard
`eps <= 0 or g <= 0` is checked first and returns `None` with an
informational log record; otherwise the Graham formula
`(eps * (7 + g*100) * 4.4) / y` is evaluated in decimal context
arithmetic, raising `decimal.DivisionByZero` when `y` is zero.  (The
`is not None` branch of the source is unreachable in this model: the
arguments are values, not `None`.) -/
def calculate_intrinsic_value (eps g y : ℚ) : CalcOutcome × List LogEvent :=
  if eps ≤ 0 ∨ g ≤ 0 then
    (CalcOutcome.noValue,
      [⟨LogLevel.info, "EPS or growth rate is negative. Stock not worth buying."⟩])
  else if y = 0 then
    (CalcOutcome.raised, [])
  else
    (CalcOutcome.value (decDiv (decMul (decMul eps (decAdd 7 (decMul g 100))) 4.4) y), [])


/-! ## Characters, decimal numeral strings: parser and printer -/

/-- The ASCII whitespace characters stripped by Python's `str.strip()`
(space, tab, newline, carriage return, vertical tab, form feed). -/
def isWsChar (c : Char) : Bool :=
  c = ' ' ∨ c = '\t' ∨ c = '\n' ∨ c = '\r' ∨ c = '\x0b' ∨ c = '\x0c'

/-- Drop the characters satisfying `p` from both ends of a list: the
behaviour of Python's `str.strip` with respect to a character class. -/
def stripBoth (p : Char → Bool) (l : List Char) : List Char :=
  ((l.dropWhile p).reverse.dropWhile p).reverse

/-- Model of `str.strip()` (no argument): strip surrounding whitespace. -/
def trimWs (l : List Char) : List Char := stripBoth isWsChar l

/-- Model of `str.replace(',', '')`: remove every comma. -/
def removeCommas (l : List Char) : List Char := l.filter (fun c => c ≠ ',')

/-- A decimal digit character `'0'`-`'9'`. -/
def isDigitChar (c : Char) : Bool := 48 ≤ c.toNat ∧ c.toNat ≤ 57

/-- The character of the digit `d < 10`. -/
def digitChar (d : ℕ) : Char := Char.ofNat (48 + d)

/-- Numeric value of a digit character. -/
def digitVal (c : Char) : ℕ := c.toNat - 48

/-- Value of a big-endian digit-character run. -/
def natVal (l : List Char) : ℕ := l.foldl (fun a c => 10 * a + digitVal c) 0

/-- Consume one optional leading sign, returning the sign and the rest. -/
def takeSign (l : List Char) : ℤ × List Char :=
  match l with
  | [] => (1, [])
  | c :: rest => if c = '+' then (1, rest) else if c = '-' then (-1, rest) else (1, l)

/-- Split a list at the first character satisfying `p` (the character
itself is consumed); `none` when no character satisfies `p`. -/
def splitFirst (p : Char → Bool) : List Char → Option (List Char × List Char)
  | [] => none
  | c :: rest =>
    if p c then some ([], rest)
    else (splitFirst p rest).map (fun x => (c :: x.1, x.2))

/-- Parse an unsigned decimal mantissa `digits [. digits]` or
`. digits` (also `digits .`), per the decimal numeric-string grammar:
returns the coefficient and the number of fractional digits. -/
def parseMant (l : List Char) : Option (ℕ × ℕ) :=
  let ip := l.takeWhile isDigitChar
  let rest := l.dropWhile isDigitChar
  if rest = [] then
    if ip = [] then none else some (natVal ip, 0)
  else if rest.head? = some '.' then
    let fp := rest.tail
    if fp.all isDigitChar ∧ (ip ≠ [] ∨ fp ≠ []) then
      some (natVal ip * 10 ^ fp.length + natVal fp, fp.length)
    else none
  else none

/-- Parse a signed exponent: optional sign, then a nonempty digit run. -/
def parseExp (l : List Char) : Option ℤ :=
  let sg := (takeSign l).1
  let l2 := (takeSign l).2
  if l2 ≠ [] ∧ l2.all isDigitChar then some (sg * (natVal l2 : ℤ)) else none

/-- Model of the `Decimal` string constructor on finite numerals: as
CPython's `_pydecimal` does, strip surrounding whitespace and remove
every underscore, then match
`[sign] (digits [. [digits]] | . digits) [(e|E) [sign] digits]`
exactly, returning the denoted rational; `none` on any other input
(the `ValueError`/`InvalidOperation` path of the callers).  The
special values `Infinity`/`NaN` are not modelled. -/
def decimalOfChars (l : List Char) : Option ℚ :=
  let l1 := (trimWs l).filter (fun c => c ≠ '_')
  let sg := (takeSign l1).1
  let l2 := (takeSign l1).2
  match splitFirst (fun c => c = 'e' ∨ c = 'E') l2 with
  | none => (parseMant l2).map (fun me => (sg : ℚ) * (me.1 : ℚ) / 10 ^ me.2)
  | some pr =>
    match parseMant pr.1, parseExp pr.2 with
    | some me, some ex => some ((sg : ℚ) * (me.1 : ℚ) / 10 ^ me.2 * (10 : ℚ) ^ ex)
    | _, _ => none

/-- Big-endian digit characters of `n` (empty for `0`). -/
def natChars (n : ℕ) : List Char := ((decDigits n).map digitChar).reverse

/-- Big-endian digit characters of `n`, `"0"` for `0`. -/
def intChars (n : ℕ) : List Char := if n = 0 then ['0'] else natChars n

/-- Exactly `e` fractional digit characters with value `m < 10^e`:
left-padded with `'0'`. -/
def fracChars (m e : ℕ) : List Char :=
  List.replicate (e - (decDigits m).length) '0' ++ natChars m

/-- The smallest `k` with `q * 10^k` integral (for a finite decimal),
found by bounded search. -/
def decExp (q : ℚ) : ℕ :=
  (((List.range (q.den + 1)).find? (fun k => (q * (10 : ℚ) ^ k).den = 1)).getD 0)

/-- Unsigned body of the decimal rendering of `s / 10^e`. -/
def decBody (s e : ℕ) : List Char :=
  if e = 0 then intChars s
  else intChars (s / 10 ^ e) ++ '.' :: fracChars (s % 10 ^ e) e

/-- Value-faithful model of Python's `str` on a `Decimal` value `q`: a
plain signed decimal numeral denoting exactly `q`.  (CPython's `str`
chooses digits from the internal exponent and may use scientific
notation; every choice denotes the same value, which is all the
program observes, since the printed string is only ever fed back into
the `Decimal` constructor.) -/
def decToString (q : ℚ) : List Char :=
  (if q < 0 then ['-'] else []) ++ decBody (q * (10 : ℚ) ^ decExp q).num.natAbs (decExp q)

/-- A rational with a power-of-ten denominator: exactly the values a
finite `Decimal` can hold. -/
def FiniteDec (q : ℚ) : Prop := ∃ k : ℕ, (q * (10 : ℚ) ^ k).den = 1

/-! ## The source parsing functions -/

/-- Argument of `parse_stock_price`: the source branches on
`isinstance(price_str, Decimal)`, so the input is a string or an
already parsed `Decimal`. -/
inductive PriceInput
  | str (s : String)
  | dec (d : ℚ)

/-- Model of `parse_stock_price` (`src/Graham.py` lines 77-87): a
`Decimal` argument is first rendered with `str`; then commas are
removed, surrounding whitespace stripped, and the result fed to the
`Decimal` constructor; `None` on a parse failure. -/
def parse_stock_price : PriceInput → Option ℚ
  | PriceInput.str s => decimalOfChars (trimWs (removeCommas s.data))
  | PriceInput.dec d => decimalOfChars (trimWs (removeCommas (decToString d)))

/-- Python's `str.strip('%')`: percent signs dropped from both ends. -/
def stripPercentEnds (l : List Char) : List Char := stripBoth (fun c => c = '%') l

/-- Model of `parse_float` (`src/Graham.py` lines 57-63, the spec's
`parse_ratio`): remove commas, strip `'%'` from both ends, feed to the
`Decimal` constructor and divide by 100 in context arithmetic; `None`
with a logged error on a parse failure. -/
def parse_float (s : String) : Option ℚ :=
  (decimalOfChars (stripPercentEnds (removeCommas s.data))).map (fun v => decDiv v 100)


/-! ## Fetch-and-extract stages and the Orchestrator (`main`) -/

/-- Model of `get_stock_price` (`src/Graham.py` lines 45-55).  The
network fetch and CSS-selector lookup are external effects; their
combined outcome is the argument: `none` when the request failed or no
element matched, `some t` for the text of the matched element.  An
empty text is rejected (`if element and element.text`); otherwise the
text goes through `parse_stock_price`. -/
def get_stock_price (t : Option String) : Option ℚ :=
  match t with
  | none => none
  | some s => if s.data = [] then none else parse_stock_price (PriceInput.str s)

/-- Model of `get_financial_data` (`src/Graham.py` lines 65-75): same
external-effect abstraction; a matched element's text goes through
`parse_float` (empty text simply fails to parse there). -/
def get_financial_data (t : Option String) : Option ℚ :=
  match t with
  | none => none
  | some s => parse_float s

/-- The outcomes of the four scraping stages for one ticker: the text
extracted for the price, EPS, growth-estimate and bond-yield elements
(`none` for a failed fetch or a missing element). -/
structure ScrapeOutcome where
  priceText : Option String
  epsText : Option String
  growthText : Option String
  yieldText : Option String

/-- The per-ticker result computed in the loop body of `main`
(`src/Graham.py` lines 167-176). -/
structure ValuationResult where
  currentPrice : ℚ
  intrinsicValue : ℚ
  marginOfSafety : ℚ
  worthBuying : Bool
  recommendation : String
deriving DecidableEq

/-- One iteration of the ticker loop of `main` (`src/Graham.py` lines
135-176), given the scraping outcomes: each stage's `None` skips the
ticker (`continue`), the already parsed price is passed through
`parse_stock_price` once more, and the valuation engine's result — if
any — is compared against the price.  The per-ticker
`except Exception` handler turns a raised `decimal.DivisionByZero`
into a skip as well. -/
def processTicker (o : ScrapeOutcome) : Option ValuationResult :=
  match get_stock_price o.priceText with
  | none => none
  | some sp0 =>
    match parse_stock_price (PriceInput.dec sp0) with
    | none => none
    | some stock_price =>
      match get_financial_data o.epsText with
      | none => none
      | some eps =>
        match get_financial_data o.growthText with
        | none => none
        | some g =>
          match get_financial_data o.yieldText with
          | none => none
          | some y =>
            match (calculate_intrinsic_value eps g y).1 with
            | CalcOutcome.raised => none
            | CalcOutcome.noValue => none
            | CalcOutcome.value v =>
              some ⟨stock_price, v, decMul v 0.8,
                decide (stock_price < decMul v 0.8),
                if stock_price < decMul v 0.8 then "Buy" else "Don't Buy"⟩

/-- State of the `tickers.json` file as `read_tickers_from_json` sees
it: missing (`FileNotFoundError`), empty or otherwise malformed (both
`json.JSONDecodeError`), or a well-formed JSON array of strings. -/
inductive FileState
  | missing
  | emptyFile
  | malformed
  | jsonList (ts : List String)

/-- Model of `read_tickers_from_json` (`src/Graham.py` lines 111-119):
the two exception classes are caught and yield `None`; a well-formed
array is returned as the ticker list. -/
def read_tickers_from_json : FileState → Option (List String)
  | FileState.jsonList ts => some ts
  | _ => none

/-- The tickers appended to `worth_buying` by the loop of `main`. -/
def worthBuyingList (scrape : String → ScrapeOutcome) (tickers : List String) :
    List String :=
  tickers.filter (fun t =>
    match processTicker (scrape t) with
    | some r => r.worthBuying
    | none => false)

/-- Observable outcome of one run of `main`: `report = none` when the
run returned early (no summary printed at all), `report = some l` when
the final summary was printed with `l` the worth-buying list (an empty
`l` prints the "No tickers worth buying identified." message).  `logs`
records the log events modelled here: the fatal "no tickers" error and
the initial per-run info record. -/
structure RunResult where
  report : Option (List String)
  logs : List LogEvent

/-- Model of `main` (`src/Graham.py` lines 121-190): a `None` ticker
list logs an error and returns before any processing; otherwise every
ticker is processed in order and the aggregated worth-buying list is
reported. -/
def main_run (fs : FileState) (scrape : String → ScrapeOutcome) : RunResult :=
  match read_tickers_from_json fs with
  | none => ⟨none, [⟨LogLevel.error, "No tickers to process."⟩]⟩
  | some tickers =>
    ⟨some (worthBuyingList scrape tickers),
      [⟨LogLevel.info, "Processing " ++ toString tickers.length ++ " tickers..."⟩]⟩


/-- Value of a little-endian digit list (the denotation `decDigits`
inverts). -/
def lval : List ℕ → ℕ
  | [] => 0
  | d :: ds => d + 10 * lval ds

/-- Strip only trailing percent signs: the reading of `parse_ratio`
that the specification's words describe ("strips ... a trailing
percent sign"), written down to be compared with the source's
`parse_float`, which uses `str.strip('%')` and therefore also strips
leading percent signs. -/
def stripTrailingPercent (l : List Char) : List Char :=
  (l.reverse.dropWhile (fun c => c = '%')).reverse

/-- The `parse_ratio` contract exactly as the specification states it:
remove commas, strip a trailing percent sign, parse as an exact
decimal, divide by 100.  Differs from the source's `parse_float` only
in not stripping leading percent signs. -/
def parse_ratio_spec (s : String) : Option ℚ :=
  (decimalOfChars (stripTrailingPercent (removeCommas s.data))).map (fun v => decDiv v 100)

/-! ## Digit-list lemmas -/

/-- With enough fuel, the digit list of `n` evaluates back to `n`. -/
theorem digitsAux_lval : ∀ (fuel n : ℕ), n < 10 ^ fuel → lval (digitsAux fuel n) = n := by
  intro fuel
  induction fuel with
  | zero => intro n h; simp only [pow_zero, Nat.lt_one_iff] at h; simp [h, digitsAux, lval]
  | succ fuel ih =>
    intro n h
    by_cases h0 : n = 0
    · simp [h0, digitsAux, lval]
    · have hdiv : n / 10 < 10 ^ fuel := by
        rw [Nat.div_lt_iff_lt_mul (by norm_num : (0:ℕ) < 10)]
        calc n < 10 ^ (fuel + 1) := h
          _ = 10 ^ fuel * 10 := by ring
      simp only [digitsAux, h0, if_false, lval, ih (n / 10) hdiv]
      omega

/-- Every entry of a digit list is a digit. -/
theorem digitsAux_mem_lt : ∀ (fuel n d : ℕ), d ∈ digitsAux fuel n → d < 10 := by
  intro fuel
  induction fuel with
  | zero => intro n d h; simp [digitsAux] at h
  | succ fuel ih =>
    intro n d h
    by_cases h0 : n = 0
    · simp [h0, digitsAux] at h
    · simp only [digitsAux, h0, if_false, List.mem_cons] at h
      rcases h with h | h
      · omega
      · exact ih _ _ h

/-- A number below `10^k` has at most `k` digits. -/
theorem digitsAux_length_le : ∀ (fuel n k : ℕ), n < 10 ^ k → (digitsAux fuel n).length ≤ k := by
  intro fuel
  induction fuel with
  | zero => intro n k _; simp [digitsAux]
  | succ fuel ih =>
    intro n k h
    by_cases h0 : n = 0
    · simp [h0, digitsAux]
    · rcases Nat.eq_zero_or_pos k with hk | hk
      · subst hk; simp only [pow_zero, Nat.lt_one_iff] at h; exact absurd h h0
      · obtain ⟨k', rfl⟩ := Nat.exists_eq_add_of_le hk
        have hdiv : n / 10 < 10 ^ k' := by
          rw [Nat.div_lt_iff_lt_mul (by norm_num : (0:ℕ) < 10)]
          calc n < 10 ^ (1 + k') := h
            _ = 10 ^ k' * 10 := by ring
        simp only [digitsAux, h0, if_false, List.length_cons]
        have := ih (n / 10) k' hdiv
        omega

/-- The denotation of `decDigits n` is `n`. -/
theorem decDigits_lval (n : ℕ) : lval (decDigits n) = n := by
  refine digitsAux_lval (n + 1) n ?_
  calc n < 10 ^ n := Nat.lt_pow_self (by norm_num) n
    _ ≤ 10 ^ (n + 1) := Nat.pow_le_pow_right (by norm_num) (Nat.le_succ n)

/-- Every entry of `decDigits n` is a digit. -/
theorem decDigits_mem_lt (n d : ℕ) (h : d ∈ decDigits n) : d < 10 :=
  digitsAux_mem_lt _ _ _ h

/-- `decDigits` of a number below `10^k` has length at most `k`. -/
theorem decDigits_length_le (n k : ℕ) (h : n < 10 ^ k) : (decDigits n).length ≤ k :=
  digitsAux_length_le _ _ _ h

/-- `decDigits` of a nonzero number is nonempty. -/
theorem decDigits_ne_nil (n : ℕ) (h : n ≠ 0) : decDigits n ≠ [] := by
  simp [decDigits, digitsAux, h]

/-! ## Digit-character lemmas -/

/-- The character of a digit is a digit character. -/
theorem isDigitChar_digitChar (d : ℕ) (h : d < 10) : isDigitChar (digitChar d) = true := by
  interval_cases d <;> decide

/-- Reading back the character of a digit gives the digit. -/
theorem digitVal_digitChar (d : ℕ) (h : d < 10) : digitVal (digitChar d) = d := by
  interval_cases d <;> decide

/-- What the program's strippers look for never occurs in a digit
character, a minus sign or a decimal point. -/
theorem goodChar_props (c : Char) (h : c = '-' ∨ c = '.' ∨ isDigitChar c = true) :
    isWsChar c = false ∧ c ≠ ',' ∧ c ≠ '_' ∧ c ≠ '%' ∧
      (decide (c = 'e' ∨ c = 'E')) = false ∧ c ≠ '+' := by
  rcases h with rfl | rfl | h
  · decide
  · decide
  · have hb : 48 ≤ c.toNat ∧ c.toNat ≤ 57 := of_decide_eq_true h
    refine ⟨?_, ?_, ?_, ?_, ?_, ?_⟩
    · simp only [isWsChar, decide_eq_false_iff_not]
      rintro (rfl | rfl | rfl | rfl | rfl | rfl) <;> simp_all
    · rintro rfl; simp_all
    · rintro rfl; simp_all
    · rintro rfl; simp_all
    · simp only [decide_eq_false_iff_not]
      rintro (rfl | rfl) <;> simp_all
    · rintro rfl; simp_all

/-! ## Digit-run value lemmas -/

/-- Appending one digit character multiplies the run's value by ten. -/
theorem natVal_append_digit (l : List Char) (c : Char) :
    natVal (l ++ [c]) = 10 * natVal l + digitVal c := by
  simp [natVal, List.foldl_append]

/-- A big-endian rendering of a little-endian digit list evaluates to
its denotation. -/
theorem natVal_rev_map (ds : List ℕ) (h : ∀ d ∈ ds, d < 10) :
    natVal ((ds.map digitChar).reverse) = lval ds := by
  induction ds with
  | nil => simp [natVal, lval]
  | cons d ds ih =>
    have hd : d < 10 := h d (List.mem_cons_self d ds)
    simp only [List.map_cons, List.reverse_cons, natVal_append_digit, lval]
    rw [ih (fun x hx => h x (List.mem_cons_of_mem d hx)), digitVal_digitChar d hd]
    ring

/-- The value of `natChars n` is `n`. -/
theorem natVal_natChars (n : ℕ) : natVal (natChars n) = n := by
  rw [natChars, natVal_rev_map _ (decDigits_mem_lt n), decDigits_lval]

/-- The value of `intChars n` is `n`. -/
theorem natVal_intChars (n : ℕ) : natVal (intChars n) = n := by
  by_cases h : n = 0
  · subst h; decide
  · simp [intChars, h, natVal_natChars]

/-- Leading zero characters do not change a run's value. -/
theorem natVal_replicate_zero (z : ℕ) (l : List Char) :
    natVal (List.replicate z '0' ++ l) = natVal l := by
  induction z with
  | zero => simp
  | succ z ih =>
    have : List.replicate (z + 1) '0' ++ l = '0' :: (List.replicate z '0' ++ l) := by
      simp [List.replicate_succ]
    rw [this]
    simpa [natVal, digitVal] using ih

/-- The value of `fracChars m e` is `m`. -/
theorem natVal_fracChars (m e : ℕ) : natVal (fracChars m e) = m := by
  rw [fracChars, natVal_replicate_zero, natVal_natChars]

/-- `natChars n` has as many characters as `n` has digits. -/
theorem natChars_length (n : ℕ) : (natChars n).length = (decDigits n).length := by
  simp [natChars]

/-- `fracChars m e` has exactly `e` characters when `m < 10^e`. -/
theorem fracChars_length (m e : ℕ) (h : m < 10 ^ e) : (fracChars m e).length = e := by
  have hle := decDigits_length_le m e h
  simp only [fracChars, List.length_append, List.length_replicate, natChars_length]
  omega

/-- Every character of `natChars n` is a digit character. -/
theorem natChars_all_digit (n : ℕ) (c : Char) (h : c ∈ natChars n) : isDigitChar c = true := by
  simp only [natChars, List.mem_reverse, List.mem_map] at h
  obtain ⟨d, hd, rfl⟩ := h
  exact isDigitChar_digitChar d (decDigits_mem_lt n d hd)

/-- Every character of `intChars n` is a digit character. -/
theorem intChars_all_digit (n : ℕ) (c : Char) (h : c ∈ intChars n) : isDigitChar c = true := by
  by_cases h0 : n = 0
  · subst h0
    rw [show intChars 0 = ['0'] from rfl] at h
    simp only [List.mem_singleton] at h
    subst h; decide
  · simp only [intChars, h0, if_false] at h; exact natChars_all_digit n c h

/-- Every character of `fracChars m e` is a digit character. -/
theorem fracChars_all_digit (m e : ℕ) (c : Char) (h : c ∈ fracChars m e) :
    isDigitChar c = true := by
  simp only [fracChars, List.mem_append, List.mem_replicate] at h
  rcases h with h | h
  · rw [h.2]; decide
  · exact natChars_all_digit m c h

/-- `intChars n` is never empty. -/
theorem intChars_ne_nil (n : ℕ) : intChars n ≠ [] := by
  by_cases h0 : n = 0
  · subst h0; decide
  · simp only [intChars, h0, if_false, natChars]
    simpa using decDigits_ne_nil n h0

/-! ## List-scanning lemmas -/

/-- `takeWhile` runs through a prefix whose members all satisfy `p`. -/
theorem takeWhile_append_all (p : Char → Bool) (a b : List Char)
    (h : ∀ x ∈ a, p x = true) : (a ++ b).takeWhile p = a ++ b.takeWhile p := by
  induction a with
  | nil => simp
  | cons c t ih =>
    have hc : p c = true := h c (List.mem_cons_self c t)
    simp only [List.cons_append, List.takeWhile_cons, hc, if_true, List.cons_inj_right]
    exact ih (fun x hx => h x (List.mem_cons_of_mem c hx))

/-- `dropWhile` drops a prefix whose members all satisfy `p`. -/
theorem dropWhile_append_all (p : Char → Bool) (a b : List Char)
    (h : ∀ x ∈ a, p x = true) : (a ++ b).dropWhile p = b.dropWhile p := by
  induction a with
  | nil => simp
  | cons c t ih =>
    have hc : p c = true := h c (List.mem_cons_self c t)
    simp only [List.cons_append, List.dropWhile_cons, hc, if_true]
    exact ih (fun x hx => h x (List.mem_cons_of_mem c hx))

/-- A list none of whose members satisfies `p` survives `dropWhile`. -/
theorem dropWhile_eq_self_of_all (p : Char → Bool) (l : List Char)
    (h : ∀ x ∈ l, p x = false) : l.dropWhile p = l := by
  cases l with
  | nil => rfl
  | cons c t =>
    have hc : p c = false := h c (List.mem_cons_self c t)
    simp [List.dropWhile_cons, hc]

/-- A nonempty `p`-free list followed by anything keeps its head under
`dropWhile`. -/
theorem dropWhile_append_of_ne_nil (p : Char → Bool) (t b : List Char)
    (hne : t ≠ []) (h : ∀ x ∈ t, p x = false) : (t ++ b).dropWhile p = t ++ b := by
  cases t with
  | nil => exact absurd rfl hne
  | cons c t' =>
    have hc : p c = false := h c (List.mem_cons_self c t')
    simp [List.cons_append, List.dropWhile_cons, hc]

/-- `stripBoth` is the identity on a `p`-free list. -/
theorem stripBoth_eq_self (p : Char → Bool) (l : List Char)
    (h : ∀ x ∈ l, p x = false) : stripBoth p l = l := by
  unfold stripBoth
  rw [dropWhile_eq_self_of_all p l h,
    dropWhile_eq_self_of_all p l.reverse (fun x hx => h x (List.mem_reverse.mp hx)),
    List.reverse_reverse]

/-- `stripBoth` removes exactly a `p`-sandwich around a nonempty
`p`-free core. -/
theorem stripBoth_sandwich (p : Char → Bool) (A t B : List Char)
    (hA : ∀ x ∈ A, p x = true) (hB : ∀ x ∈ B, p x = true)
    (ht : ∀ x ∈ t, p x = false) (hne : t ≠ []) :
    stripBoth p (A ++ t ++ B) = t := by
  unfold stripBoth
  rw [List.append_assoc, dropWhile_append_all p A (t ++ B) hA,
    dropWhile_append_of_ne_nil p t B hne ht, List.reverse_append,
    dropWhile_append_all p B.reverse t.reverse
      (fun x hx => hB x (List.mem_reverse.mp hx)),
    dropWhile_eq_self_of_all p t.reverse (fun x hx => ht x (List.mem_reverse.mp hx)),
    List.reverse_reverse]

/-- `splitFirst` finds nothing in a `p`-free list. -/
theorem splitFirst_eq_none (p : Char → Bool) (l : List Char)
    (h : ∀ x ∈ l, p x = false) : splitFirst p l = none := by
  induction l with
  | nil => rfl
  | cons c t ih =>
    have hc : p c = false := h c (List.mem_cons_self c t)
    simp only [splitFirst, hc, Bool.false_eq_true, if_false]
    rw [ih (fun x hx => h x (List.mem_cons_of_mem c hx))]
    rfl

/-- A filter that keeps every member is the identity. -/
theorem filter_eq_self_of_all (p : Char → Bool) (l : List Char)
    (h : ∀ x ∈ l, p x = true) : l.filter p = l := List.filter_eq_self.mpr h

/-! ## Finite decimals and the printing exponent -/

/-- A divisor of a power of ten divides the power indexed by itself
(its prime factors are among 2 and 5, each appearing fewer than `d`
times). -/
theorem dvd_ten_pow_self (d : ℕ) : ∀ K : ℕ, d ∣ 10 ^ K → d ∣ 10 ^ d := by
  induction d using Nat.strong_induction_on with
  | _ d ih =>
    intro K hdvd
    rcases eq_or_ne d 1 with h1 | h1
    · simp [h1]
    rcases eq_or_ne d 0 with h0 | h0
    · subst h0
      have : (10 : ℕ) ^ K = 0 := Nat.eq_zero_of_zero_dvd hdvd
      exact absurd this (pow_ne_zero K (by norm_num))
    obtain ⟨p, pp, hpd⟩ := Nat.exists_prime_and_dvd h1
    have hp10 : p ∣ 10 := pp.dvd_of_dvd_pow (hpd.trans hdvd)
    obtain ⟨d', rfl⟩ := hpd
    have hd'0 : d' ≠ 0 := by rintro rfl; simp at h0
    have hp2 : 2 ≤ p := pp.two_le
    have hlt : d' < p * d' := by
      calc d' < 2 * d' := by omega
        _ ≤ p * d' := Nat.mul_le_mul_right d' hp2
    have hd'dvd : d' ∣ 10 ^ K := (Dvd.intro_left p rfl).trans hdvd
    have ihd := ih d' hlt K hd'dvd
    have hstep : p * d' ∣ 10 ^ (d' + 1) := by
      rw [pow_succ, mul_comm (10 ^ d') 10]
      exact mul_dvd_mul hp10 ihd
    refine hstep.trans (pow_dvd_pow 10 ?_)
    calc d' + 1 ≤ d' + d' := by omega
      _ = 2 * d' := by ring
      _ ≤ p * d' := Nat.mul_le_mul_right d' hp2

/-- A rational that becomes integral after some power-of-ten scaling
becomes integral after scaling by `10 ^ den`. -/
theorem finiteDec_mul_den_int (q : ℚ) (h : FiniteDec q) :
    (q * (10 : ℚ) ^ q.den).den = 1 := by
  obtain ⟨k, hk⟩ := h
  have h10k : ((10 : ℚ) ^ k) ≠ 0 := pow_ne_zero k (by norm_num)
  have hz : q * (10 : ℚ) ^ k = ((q * (10 : ℚ) ^ k).num : ℚ) := by
    conv_lhs => rw [← Rat.num_div_den (q * (10 : ℚ) ^ k)]
    rw [hk]; simp
  have hq : q = Rat.divInt ((q * (10 : ℚ) ^ k).num) ((10 : ℤ) ^ k) := by
    rw [Rat.divInt_eq_div]
    push_cast
    rw [← hz]
    field_simp
  have hdvd : q.den ∣ 10 ^ k := by
    have hd := Rat.den_dvd ((q * (10 : ℚ) ^ k).num) ((10 : ℤ) ^ k)
    rw [← hq] at hd
    have hd2 : (q.den : ℤ) ∣ (((10 : ℕ) ^ k : ℕ) : ℤ) := by push_cast; exact_mod_cast hd
    exact_mod_cast hd2
  obtain ⟨c, hc⟩ := dvd_ten_pow_self q.den k hdvd
  have hden0 : (q.den : ℚ) ≠ 0 := Nat.cast_ne_zero.mpr q.den_nz
  have hcast : ((10 : ℚ) ^ q.den) = (q.den : ℚ) * (c : ℚ) := by
    have := congrArg (fun m : ℕ => (m : ℚ)) hc
    push_cast at this
    simpa using this
  have hval : q * (10 : ℚ) ^ q.den = ((q.num * c : ℤ) : ℚ) := by
    rw [hcast, ← mul_assoc, Rat.mul_den_eq_num]
    push_cast
    ring
  rw [hval, Rat.den_intCast]

/-- The searched printing exponent of a finite decimal indeed makes the
value integral. -/
theorem finiteDec_den (q : ℚ) (h : FiniteDec q) :
    (q * (10 : ℚ) ^ decExp q).den = 1 := by
  have hmem : q.den ∈ List.range (q.den + 1) := List.mem_range.mpr (Nat.lt_succ_self _)
  have hpred : (fun k => decide ((q * (10 : ℚ) ^ k).den = 1)) q.den = true := by
    simpa using finiteDec_mul_den_int q h
  have hsome : ((List.range (q.den + 1)).find?
      (fun k => decide ((q * (10 : ℚ) ^ k).den = 1))).isSome = true := by
    rcases hfind : (List.range (q.den + 1)).find?
        (fun k => decide ((q * (10 : ℚ) ^ k).den = 1)) with _ | k'
    · have := List.find?_eq_none.mp hfind q.den hmem
      exact absurd hpred (by simpa using this)
    · rfl
  rcases hfind : (List.range (q.den + 1)).find?
      (fun k => decide ((q * (10 : ℚ) ^ k).den = 1)) with _ | k'
  · rw [hfind] at hsome; simp at hsome
  · have hk' := List.find?_some hfind
    have : decExp q = k' := by simp [decExp, hfind]
    rw [this]
    exact of_decide_eq_true hk'

/-! ## The printed numeral through the parser -/

/-- A digit character is not a sign, a dot, or a percent sign. -/
theorem isDigitChar_ne (c : Char) (h : isDigitChar c = true) :
    c ≠ '+' ∧ c ≠ '-' ∧ c ≠ '.' ∧ c ≠ '%' := by
  have hb : 48 ≤ c.toNat ∧ c.toNat ≤ 57 := of_decide_eq_true h
  refine ⟨?_, ?_, ?_, ?_⟩ <;> (rintro rfl; simp_all)

/-- Every character of `decBody s e` is a dot or a digit. -/
theorem decBody_good (s e : ℕ) (c : Char) (h : c ∈ decBody s e) :
    c = '.' ∨ isDigitChar c = true := by
  by_cases h0 : e = 0
  · subst h0
    rw [show decBody s 0 = intChars s from rfl] at h
    exact Or.inr (intChars_all_digit s c h)
  · simp only [decBody, h0, if_false, List.mem_append, List.mem_cons] at h
    rcases h with h | h | h
    · exact Or.inr (intChars_all_digit _ c h)
    · exact Or.inl h
    · exact Or.inr (fracChars_all_digit _ _ c h)

/-- `decBody` starts with a digit character. -/
theorem decBody_head_digit (s e : ℕ) :
    ∃ c t, decBody s e = c :: t ∧ isDigitChar c = true := by
  have hne := intChars_ne_nil (if e = 0 then s else s / 10 ^ e)
  by_cases h0 : e = 0
  · subst h0
    rcases hic : intChars s with _ | ⟨c, t⟩
    · exact absurd hic (intChars_ne_nil s)
    · refine ⟨c, t, by rw [show decBody s 0 = intChars s from rfl, hic], ?_⟩
      exact intChars_all_digit s c (by rw [hic]; exact List.mem_cons_self c t)
  · rcases hic : intChars (s / 10 ^ e) with _ | ⟨c, t⟩
    · exact absurd hic (intChars_ne_nil _)
    · refine ⟨c, t ++ '.' :: fracChars (s % 10 ^ e) e, ?_, ?_⟩
      · simp [decBody, h0, hic]
      · exact intChars_all_digit _ c (by rw [hic]; exact List.mem_cons_self c t)

/-- The mantissa parser inverts `decBody`. -/
theorem parseMant_decBody (s e : ℕ) : parseMant (decBody s e) = some (s, e) := by
  by_cases h0 : e = 0
  · subst h0
    rw [show decBody s 0 = intChars s from rfl]
    have htake : (intChars s).takeWhile isDigitChar = intChars s := by
      have := takeWhile_append_all isDigitChar (intChars s) [] (intChars_all_digit s)
      simpa using this
    have hdrop : (intChars s).dropWhile isDigitChar = [] := by
      have := dropWhile_append_all isDigitChar (intChars s) [] (intChars_all_digit s)
      simpa using this
    simp [parseMant, htake, hdrop, intChars_ne_nil s, natVal_intChars]
  · set F := fracChars (s % 10 ^ e) e with hF
    have hmod : s % 10 ^ e < 10 ^ e := Nat.mod_lt s (pow_pos (by norm_num) e)
    have hFlen : F.length = e := fracChars_length _ _ hmod
    have hFdig : ∀ c ∈ F, isDigitChar c = true := fracChars_all_digit _ _
    have hbody : decBody s e = intChars (s / 10 ^ e) ++ '.' :: F := by
      simp [decBody, h0, hF]
    have hdot : isDigitChar '.' = false := by decide
    have htake : (decBody s e).takeWhile isDigitChar = intChars (s / 10 ^ e) := by
      rw [hbody, takeWhile_append_all isDigitChar _ _ (intChars_all_digit _)]
      simp [List.takeWhile_cons, hdot]
    have hdrop : (decBody s e).dropWhile isDigitChar = '.' :: F := by
      rw [hbody, dropWhile_append_all isDigitChar _ _ (intChars_all_digit _)]
      simp [List.dropWhile_cons, hdot]
    simp only [parseMant, htake, hdrop]
    rw [if_neg (by simp), if_pos (by simp)]
    rw [if_pos ?_]
    · simp only [List.tail_cons, hFlen, natVal_intChars, hF]
      rw [natVal_fracChars]
      have hsum : s / 10 ^ e * 10 ^ e + s % 10 ^ e = s := by
        rw [mul_comm]; exact Nat.div_add_mod s (10 ^ e)
      rw [hsum]
    · constructor
      · simp only [List.tail_cons, List.all_eq_true]
        exact hFdig
      · exact Or.inl (intChars_ne_nil _)

/-- `takeSign` consumes a leading minus sign. -/
theorem takeSign_neg (t : List Char) : takeSign ('-' :: t) = (-1, t) := by
  simp [takeSign]

/-- `takeSign` leaves a digit-headed list alone. -/
theorem takeSign_digit (c : Char) (t : List Char) (h : isDigitChar c = true) :
    takeSign (c :: t) = (1, c :: t) := by
  obtain ⟨h1, h2, _, _⟩ := isDigitChar_ne c h
  simp only [takeSign]
  rw [if_neg h1, if_neg h2]

/-- Re-parsing a printed finite decimal recovers it exactly: the
printer `decToString` composed with the `Decimal` constructor is the
identity. -/
theorem decimalOfChars_decToString (q : ℚ) (h : FiniteDec q) :
    decimalOfChars (decToString q) = some q := by
  have hden := finiteDec_den q h
  set e := decExp q with he
  set n : ℤ := (q * (10 : ℚ) ^ e).num with hn
  set s : ℕ := n.natAbs with hs
  have h10 : ((10 : ℚ) ^ e) ≠ 0 := pow_ne_zero e (by norm_num)
  have hq10 : q * (10 : ℚ) ^ e = (n : ℚ) := by
    rw [hn]
    conv_lhs => rw [← Rat.num_div_den (q * (10 : ℚ) ^ e)]
    rw [hden]; simp
  have hqval : q = (n : ℚ) / (10 : ℚ) ^ e := by
    rw [← hq10]; field_simp
  have hprint : decToString q = (if q < 0 then ['-'] else []) ++ decBody s e := rfl
  have hbody_good : ∀ c ∈ decBody s e, c = '-' ∨ c = '.' ∨ isDigitChar c = true := by
    intro c hc
    rcases decBody_good s e c hc with h1 | h1
    · exact Or.inr (Or.inl h1)
    · exact Or.inr (Or.inr h1)
  have hl_good : ∀ c ∈ decToString q, c = '-' ∨ c = '.' ∨ isDigitChar c = true := by
    intro c hc
    rw [hprint] at hc
    rcases List.mem_append.mp hc with h1 | h1
    · left
      by_cases hneg : q < 0
      · simp only [hneg, if_true, List.mem_singleton] at h1; exact h1
      · simp [hneg] at h1
    · exact hbody_good c h1
  have htrim : trimWs (decToString q) = decToString q :=
    stripBoth_eq_self _ _ (fun c hc => (goodChar_props c (hl_good c hc)).1)
  have hfilter : (decToString q).filter (fun c => c ≠ '_') = decToString q :=
    filter_eq_self_of_all _ _
      (fun c hc => decide_eq_true (goodChar_props c (hl_good c hc)).2.2.1)
  have hsplit : splitFirst (fun c => c = 'e' ∨ c = 'E') (decBody s e) = none :=
    splitFirst_eq_none _ _
      (fun c hc => (goodChar_props c (hbody_good c hc)).2.2.2.2.1)
  simp only [decimalOfChars, htrim, hfilter]
  by_cases hneg : q < 0
  · have hprint' : decToString q = '-' :: decBody s e := by
      rw [hprint, if_pos hneg]; rfl
    rw [hprint', takeSign_neg]
    simp only [hsplit, parseMant_decBody, Option.map_some']
    refine congrArg some ?_
    have hnlt : n < 0 := by
      have : ((n : ℚ)) < 0 := by
        rw [← hq10]
        exact mul_neg_of_neg_of_pos hneg (pow_pos (by norm_num) e)
      exact_mod_cast this
    have hsn : (s : ℤ) = -n := by rw [hs]; omega
    have hcast : ((s : ℚ)) = -(n : ℚ) := by exact_mod_cast congrArg (fun z : ℤ => (z : ℚ)) hsn
    rw [hqval]
    push_cast [hcast]
    ring
  · have hprint' : decToString q = decBody s e := by
      rw [hprint, if_neg hneg]; rfl
    obtain ⟨c, t, hct, hcd⟩ := decBody_head_digit s e
    rw [hprint', hct, takeSign_digit c t hcd, ← hct]
    simp only [hsplit, parseMant_decBody, Option.map_some']
    refine congrArg some ?_
    have hnge : 0 ≤ n := by
      have : (0 : ℚ) ≤ (n : ℚ) := by
        rw [← hq10]
        exact mul_nonneg (le_of_not_lt hneg) (le_of_lt (pow_pos (by norm_num) e))
      exact_mod_cast this
    have hsn : (s : ℤ) = n := by rw [hs]; omega
    have hcast : ((s : ℚ)) = (n : ℚ) := by exact_mod_cast congrArg (fun z : ℤ => (z : ℚ)) hsn
    rw [hqval]
    push_cast [hcast]
    ring

/-- Every character of a printed decimal is a sign, a dot or a digit. -/
theorem decToString_good (q : ℚ) (c : Char) (hc : c ∈ decToString q) :
    c = '-' ∨ c = '.' ∨ isDigitChar c = true := by
  have hprint : decToString q =
      (if q < 0 then ['-'] else []) ++ decBody (q * (10 : ℚ) ^ decExp q).num.natAbs (decExp q) :=
    rfl
  rw [hprint] at hc
  rcases List.mem_append.mp hc with h1 | h1
  · left
    by_cases hneg : q < 0
    · simp only [hneg, if_true, List.mem_singleton] at h1; exact h1
    · simp [hneg] at h1
  · rcases decBody_good _ _ c h1 with h2 | h2
    · exact Or.inr (Or.inl h2)
    · exact Or.inr (Or.inr h2)

/-- A printed decimal is never the empty string. -/
theorem decToString_ne_nil (q : ℚ) : decToString q ≠ [] := by
  have hprint : decToString q =
      (if q < 0 then ['-'] else []) ++ decBody (q * (10 : ℚ) ^ decExp q).num.natAbs (decExp q) :=
    rfl
  obtain ⟨c, t, hct, _⟩ := decBody_head_digit (q * (10 : ℚ) ^ decExp q).num.natAbs (decExp q)
  rw [hprint, hct]
  simp

/-- Feeding a parsed price (a `Decimal`) back through
`parse_stock_price` — as the orchestrator does — returns it unchanged. -/
theorem parse_stock_price_print (d : ℚ) (h : FiniteDec d) :
    parse_stock_price (PriceInput.dec d) = some d := by
  have hnc : removeCommas (decToString d) = decToString d :=
    filter_eq_self_of_all _ _
      (fun c hc => decide_eq_true (goodChar_props c (decToString_good d c hc)).2.1)
  have htrim : trimWs (decToString d) = decToString d :=
    stripBoth_eq_self _ _ (fun c hc => (goodChar_props c (decToString_good d c hc)).1)
  show decimalOfChars (trimWs (removeCommas (decToString d))) = some d
  rw [hnc, htrim]
  exact decimalOfChars_decToString d h

/-- `parse_stock_price` on a printed decimal decorated with commas
anywhere and whitespace around it recovers the value exactly. -/
theorem parse_stock_price_sandwich (q : ℚ) (h : FiniteDec q) (t : List Char) (a b : ℕ)
    (ht : removeCommas t = decToString q) :
    parse_stock_price (PriceInput.str
      (String.mk (List.replicate a ' ' ++ t ++ List.replicate b ' '))) = some q := by
  show decimalOfChars
      (trimWs (removeCommas (List.replicate a ' ' ++ t ++ List.replicate b ' '))) = some q
  have hra : removeCommas (List.replicate a ' ') = List.replicate a ' ' :=
    filter_eq_self_of_all _ _ (fun c hc => by
      rw [(List.mem_replicate.mp hc).2]; decide)
  have hrb : removeCommas (List.replicate b ' ') = List.replicate b ' ' :=
    filter_eq_self_of_all _ _ (fun c hc => by
      rw [(List.mem_replicate.mp hc).2]; decide)
  have hrc : removeCommas (List.replicate a ' ' ++ t ++ List.replicate b ' ') =
      List.replicate a ' ' ++ decToString q ++ List.replicate b ' ' := by
    simp only [removeCommas] at hra hrb ht ⊢
    rw [List.filter_append, List.filter_append, hra, hrb, ht]
  rw [hrc]
  have htrim : trimWs (List.replicate a ' ' ++ decToString q ++ List.replicate b ' ') =
      decToString q := by
    refine stripBoth_sandwich _ _ _ _ ?_ ?_ ?_ (decToString_ne_nil q)
    · intro x hx; rw [(List.mem_replicate.mp hx).2]; decide
    · intro x hx; rw [(List.mem_replicate.mp hx).2]; decide
    · intro x hx; exact (goodChar_props x (decToString_good q x hx)).1
  rw [htrim]
  exact decimalOfChars_decToString q h

/-- `parse_float` on a printed decimal decorated with percent signs on
either end recovers the value divided by 100 (in context arithmetic). -/
theorem parse_float_sandwich (q : ℚ) (h : FiniteDec q) (j k : ℕ) :
    parse_float (String.mk
      (List.replicate j '%' ++ decToString q ++ List.replicate k '%')) =
      some (decDiv q 100) := by
  show (decimalOfChars (stripPercentEnds (removeCommas
      (List.replicate j '%' ++ decToString q ++ List.replicate k '%')))).map
      (fun v => decDiv v 100) = some (decDiv q 100)
  have hrj : removeCommas (List.replicate j '%') = List.replicate j '%' :=
    filter_eq_self_of_all _ _ (fun c hc => by
      rw [(List.mem_replicate.mp hc).2]; decide)
  have hrk : removeCommas (List.replicate k '%') = List.replicate k '%' :=
    filter_eq_self_of_all _ _ (fun c hc => by
      rw [(List.mem_replicate.mp hc).2]; decide)
  have hrq : removeCommas (decToString q) = decToString q :=
    filter_eq_self_of_all _ _
      (fun c hc => decide_eq_true (goodChar_props c (decToString_good q c hc)).2.1)
  have hrc : removeCommas (List.replicate j '%' ++ decToString q ++ List.replicate k '%') =
      List.replicate j '%' ++ decToString q ++ List.replicate k '%' := by
    simp only [removeCommas] at hrj hrk hrq ⊢
    rw [List.filter_append, List.filter_append, hrj, hrk, hrq]
  rw [hrc]
  have hstrip : stripPercentEnds
      (List.replicate j '%' ++ decToString q ++ List.replicate k '%') = decToString q := by
    refine stripBoth_sandwich _ _ _ _ ?_ ?_ ?_ (decToString_ne_nil q)
    · intro x hx; rw [(List.mem_replicate.mp hx).2]; decide
    · intro x hx; rw [(List.mem_replicate.mp hx).2]; decide
    · intro x hx
      exact decide_eq_false ((goodChar_props x (decToString_good q x hx)).2.2.2.1)
  rw [hstrip, decimalOfChars_decToString q h, Option.map_some']

/-! ## Pipeline helper lemmas -/

/-- A produced intrinsic value certifies positive EPS and growth and a
nonzero yield. -/
theorem calc_value_pos (e g y v : ℚ)
    (h : (calculate_intrinsic_value e g y).1 = CalcOutcome.value v) :
    0 < e ∧ 0 < g ∧ y ≠ 0 := by
  by_cases h1 : e ≤ 0 ∨ g ≤ 0
  · rw [calculate_intrinsic_value, if_pos h1] at h
    simp at h
  · by_cases h2 : y = 0
    · rw [calculate_intrinsic_value, if_neg h1, if_pos h2] at h
      simp at h
    · push_neg at h1
      exact ⟨h1.1, h1.2, h2⟩

/-- Elimination principle for a successful ticker: every stage
succeeded and the result has the shape `main` constructs. -/
theorem processTicker_eq_some (o : ScrapeOutcome) (r : ValuationResult)
    (h : processTicker o = some r) :
    ∃ sp0 price eps g y v,
      get_stock_price o.priceText = some sp0 ∧
      parse_stock_price (PriceInput.dec sp0) = some price ∧
      get_financial_data o.epsText = some eps ∧
      get_financial_data o.growthText = some g ∧
      get_financial_data o.yieldText = some y ∧
      (calculate_intrinsic_value eps g y).1 = CalcOutcome.value v ∧
      r = ⟨price, v, decMul v 0.8, decide (price < decMul v 0.8),
        if price < decMul v 0.8 then "Buy" else "Don't Buy"⟩ := by
  rcases h1 : get_stock_price o.priceText with _ | sp0
  · simp [processTicker, h1] at h
  rcases h2 : parse_stock_price (PriceInput.dec sp0) with _ | price
  · simp [processTicker, h1, h2] at h
  rcases h3 : get_financial_data o.epsText with _ | eps
  · simp [processTicker, h1, h2, h3] at h
  rcases h4 : get_financial_data o.growthText with _ | g
  · simp [processTicker, h1, h2, h3, h4] at h
  rcases h5 : get_financial_data o.yieldText with _ | y
  · simp [processTicker, h1, h2, h3, h4, h5] at h
  rcases h6 : (calculate_intrinsic_value eps g y).1 with _ | _ | v
  · simp [processTicker, h1, h2, h3, h4, h5, h6] at h
  · simp [processTicker, h1, h2, h3, h4, h5, h6] at h
  · simp only [processTicker, h1, h2, h3, h4, h5, h6] at h
    refine ⟨sp0, price, eps, g, y, v, rfl, h2, rfl, rfl, rfl, h6, ?_⟩
    exact (Option.some.inj h).symm

/-- A failed stage skips the ticker: no result is produced. -/
theorem processTicker_none_of_stage (o : ScrapeOutcome)
    (h : get_stock_price o.priceText = none ∨
      get_financial_data o.epsText = none ∨
      get_financial_data o.growthText = none ∨
      get_financial_data o.yieldText = none) :
    processTicker o = none := by
  rcases hr : processTicker o with _ | r
  · rfl
  · obtain ⟨sp0, price, eps, g, y, v, h1, h2, h3, h4, h5, _, _⟩ :=
      processTicker_eq_some o r hr
    rcases h with h | h | h | h <;> simp_all

/-! ## Idempotence of end-stripping -/

/-- The head surviving a `dropWhile` does not satisfy the predicate. -/
theorem dropWhile_head_not (p : Char → Bool) (l : List Char) :
    ∀ c, (l.dropWhile p).head? = some c → p c = false := by
  induction l with
  | nil => intro c hc; simp at hc
  | cons d t ih =>
    intro c hc
    by_cases hd : p d = true
    · rw [List.dropWhile_cons, if_pos hd] at hc
      exact ih c hc
    · rw [List.dropWhile_cons, if_neg hd] at hc
      simp only [List.head?_cons, Option.some.injEq] at hc
      rw [← hc]
      exact Bool.eq_false_iff.mpr hd

/-- A nonempty `dropWhile` keeps the last element of its input. -/
theorem dropWhile_getLast? (p : Char → Bool) (l : List Char)
    (h : l.dropWhile p ≠ []) : (l.dropWhile p).getLast? = l.getLast? := by
  conv_rhs => rw [← List.takeWhile_append_dropWhile (p := p) (l := l)]
  rw [List.getLast?_append]
  rcases hd : (l.dropWhile p).getLast? with _ | c
  · exact absurd (List.getLast?_eq_none_iff.mp hd) h
  · simp [Option.or]

/-- A list whose two end characters do not satisfy `p` survives
`stripBoth`. -/
theorem stripBoth_eq_self_of_ends (p : Char → Bool) (l : List Char)
    (h1 : ∀ c, l.head? = some c → p c = false)
    (h2 : ∀ c, l.getLast? = some c → p c = false) : stripBoth p l = l := by
  have hdrop : l.dropWhile p = l := by
    cases l with
    | nil => rfl
    | cons c t => rw [List.dropWhile_cons, if_neg (by simp [h1 c rfl])]
  unfold stripBoth
  rw [hdrop]
  have hdrop2 : l.reverse.dropWhile p = l.reverse := by
    cases hrev : l.reverse with
    | nil => rfl
    | cons c t =>
      have hh : l.reverse.head? = some c := by rw [hrev]; rfl
      rw [List.head?_reverse] at hh
      rw [List.dropWhile_cons, if_neg (by simp [h2 c hh])]
  rw [hdrop2, List.reverse_reverse]

/-- `stripBoth` is idempotent. -/
theorem stripBoth_idem (p : Char → Bool) (l : List Char) :
    stripBoth p (stripBoth p l) = stripBoth p l := by
  rcases hres : stripBoth p l with _ | ⟨c, t⟩
  · rfl
  rw [← hres]
  refine stripBoth_eq_self_of_ends p _ ?_ ?_
  · intro d hd
    -- the head of the strip result is the last of the inner dropWhile
    unfold stripBoth at hd
    rw [List.head?_reverse] at hd
    have hne : (l.dropWhile p).reverse.dropWhile p ≠ [] := by
      intro hnil
      rw [stripBoth, hnil] at hres
      simp at hres
    rw [dropWhile_getLast? p _ hne, List.getLast?_reverse] at hd
    exact dropWhile_head_not p l d hd
  · intro d hd
    unfold stripBoth at hd
    rw [List.getLast?_reverse] at hd
    exact dropWhile_head_not p _ d hd

/-- The `Decimal` constructor ignores whitespace already stripped:
parsing after an extra `strip()` changes nothing. -/
theorem decimalOfChars_trimWs (l : List Char) :
    decimalOfChars (trimWs l) = decimalOfChars l := by
  show decimalOfChars (stripBoth isWsChar l) = decimalOfChars l
  unfold decimalOfChars trimWs
  rw [stripBoth_idem]

/-! ## The claims -/

/-- Claim C3: for every eps, growth and yield, the Valuation Engine
returns nothing whenever eps ≤ 0 or growth ≤ 0 — for all yield,
including 0, because the domain-rule check precedes any arithmetic —
and the rejection is logged as informational, not as an error. -/
theorem c3_nonpositive_guard : ∀ eps g y : ℚ, eps ≤ 0 ∨ g ≤ 0 →
    calculate_intrinsic_value eps g y =
      (CalcOutcome.noValue,
        [⟨LogLevel.info, "EPS or growth rate is negative. Stock not worth buying."⟩]) := by
  intro eps g y h
  rw [calculate_intrinsic_value, if_pos h]

/-- Witness for C3 at eps = -1, growth = 1, yield = 0: the guard fires
and no division is attempted even at zero yield. -/
theorem c3_nonpositive_guard_witness :
    calculate_intrinsic_value (-1) 1 0 =
      (CalcOutcome.noValue,
        [⟨LogLevel.info, "EPS or growth rate is negative. Stock not worth buying."⟩]) :=
  c3_nonpositive_guard (-1) 1 0 (Or.inl (by norm_num))

/-- Claim C9: the division by yield is unguarded — for every eps > 0
and growth > 0, calling the engine with yield = 0 raises a decimal
division error instead of returning nothing, so the `decimal | nothing`
contract needs the unstated precondition yield ≠ 0. -/
theorem c9_division_unguarded : ∀ eps g : ℚ, 0 < eps → 0 < g →
    (calculate_intrinsic_value eps g 0).1 = CalcOutcome.raised := by
  intro eps g he hg
  have hguard : ¬ (eps ≤ 0 ∨ g ≤ 0) := by push_neg; exact ⟨he, hg⟩
  rw [calculate_intrinsic_value, if_neg hguard, if_pos rfl]

/-- Witness for C9 at eps = 1, growth = 1. -/
theorem c9_division_unguarded_witness :
    (calculate_intrinsic_value 1 1 0).1 = CalcOutcome.raised :=
  c9_division_unguarded 1 1 (by norm_num) (by norm_num)

/-- Claim C5: a missing or empty ticker-list file makes
`read_tickers_from_json` return nothing, upon which the run logs the
"No tickers to process." error and produces no report at all (no
worth-buying summary and no "none found" message are printed). -/
theorem c5_fatal_ticker_file :
    read_tickers_from_json FileState.missing = none ∧
    read_tickers_from_json FileState.emptyFile = none ∧
    (∀ (fs : FileState) (scrape : String → ScrapeOutcome),
      read_tickers_from_json fs = none →
      (main_run fs scrape).report = none ∧
      (main_run fs scrape).logs = [⟨LogLevel.error, "No tickers to process."⟩]) := by
  refine ⟨rfl, rfl, ?_⟩
  intro fs scrape h
  simp [main_run, h]

/-- Witness for C5: the missing-file state, under a scraper that
returns nothing. -/
theorem c5_fatal_ticker_file_witness :
    (main_run FileState.missing (fun _ => ⟨none, none, none, none⟩)).report = none ∧
    (main_run FileState.missing (fun _ => ⟨none, none, none, none⟩)).logs =
      [⟨LogLevel.error, "No tickers to process."⟩] :=
  c5_fatal_ticker_file.2.2 FileState.missing (fun _ => ⟨none, none, none, none⟩) rfl

/-- Claim C4: a ValuationResult is constructed only when all four
scraping stages succeeded and EPS > 0 and growth > 0; a failed stage
skips the ticker with no result; and a skipped ticker leaves the
worth-buying list of the remaining batch untouched. -/
theorem c4_result_invariant :
    (∀ (o : ScrapeOutcome) (r : ValuationResult), processTicker o = some r →
      ∃ p pq eps g y, get_stock_price o.priceText = some p ∧
        parse_stock_price (PriceInput.dec p) = some pq ∧
        get_financial_data o.epsText = some eps ∧
        get_financial_data o.growthText = some g ∧
        get_financial_data o.yieldText = some y ∧ 0 < eps ∧ 0 < g) ∧
    (∀ o : ScrapeOutcome,
      get_stock_price o.priceText = none ∨ get_financial_data o.epsText = none ∨
      get_financial_data o.growthText = none ∨ get_financial_data o.yieldText = none →
      processTicker o = none) ∧
    (∀ (scrape : String → ScrapeOutcome) (t : String) (rest : List String),
      processTicker (scrape t) = none →
      worthBuyingList scrape (t :: rest) = worthBuyingList scrape rest) := by
  refine ⟨?_, processTicker_none_of_stage, ?_⟩
  · intro o r h
    obtain ⟨sp0, price, eps, g, y, v, h1, h2, h3, h4, h5, h6, _⟩ :=
      processTicker_eq_some o r h
    obtain ⟨he, hg, _⟩ := calc_value_pos eps g y v h6
    exact ⟨sp0, price, eps, g, y, h1, h2, h3, h4, h5, he, hg⟩
  · intro scrape t rest h
    simp [worthBuyingList, List.filter_cons, h]

/-- Witness for C4: a ticker whose stages all failed is skipped. -/
theorem c4_result_invariant_witness :
    processTicker ⟨none, none, none, none⟩ = none :=
  c4_result_invariant.2.1 ⟨none, none, none, none⟩ (Or.inl rfl)

/-- Claim C2: for every computed result, the recommendation is "Buy"
exactly when the current price is strictly below the margin of safety
(0.8 times the intrinsic value) and "Don't Buy" otherwise, so a price
equal to the margin yields "Don't Buy"; concretely, scraped inputs
giving price 20 against margin 27.2 yield "Buy", price 30 yields
"Don't Buy", and the boundary price 27.2 yields "Don't Buy". -/
theorem c2_recommendation :
    (∀ (o : ScrapeOutcome) (r : ValuationResult), processTicker o = some r →
      (r.recommendation = "Buy" ↔ r.currentPrice < r.marginOfSafety) ∧
      (r.recommendation = "Don't Buy" ↔ ¬ r.currentPrice < r.marginOfSafety)) ∧
    (processTicker ⟨some "20", some "200", some "10%", some "440"⟩).map
      (fun r => r.recommendation) = some "Buy" ∧
    (processTicker ⟨some "30", some "200", some "10%", some "440"⟩).map
      (fun r => r.recommendation) = some "Don't Buy" ∧
    (processTicker ⟨some "27.2", some "200", some "10%", some "440"⟩).map
      (fun r => r.recommendation) = some "Don't Buy" := by
  refine ⟨?_, by with_unfolding_all decide, by with_unfolding_all decide,
    by with_unfolding_all decide⟩
  intro o r h
  obtain ⟨sp0, price, eps, g, y, v, _, _, _, _, _, _, hr⟩ := processTicker_eq_some o r h
  subst hr
  have hne : ("Buy" : String) ≠ "Don't Buy" := by decide
  by_cases hlt : price < decMul v 0.8
  · simp [hlt, hne]
  · simp [hlt, hne.symm]

/-- Witness for C2 on the concrete "Buy" run (price 20, margin 27.2). -/
theorem c2_recommendation_witness :
    ((ValuationResult.mk 20 34 (decMul 34 0.8) (decide ((20:ℚ) < decMul 34 0.8))
        (if (20:ℚ) < decMul 34 0.8 then "Buy" else "Don't Buy")).recommendation = "Buy" ↔
      (ValuationResult.mk 20 34 (decMul 34 0.8) (decide ((20:ℚ) < decMul 34 0.8))
        (if (20:ℚ) < decMul 34 0.8 then "Buy" else "Don't Buy")).currentPrice <
      (ValuationResult.mk 20 34 (decMul 34 0.8) (decide ((20:ℚ) < decMul 34 0.8))
        (if (20:ℚ) < decMul 34 0.8 then "Buy" else "Don't Buy")).marginOfSafety) :=
  (c2_recommendation.1 ⟨some "20", some "200", some "10%", some "440"⟩
    (ValuationResult.mk 20 34 (decMul 34 0.8) (decide ((20:ℚ) < decMul 34 0.8))
      (if (20:ℚ) < decMul 34 0.8 then "Buy" else "Don't Buy"))
    (by with_unfolding_all decide)).1

/-- Counterexample to claim C1 as stated: at eps = 1, growth = 1,
yield = 3 the engine does not return the exact rational value
eps * (7 + growth*100) * 4.4 / yield — the decimal division rounds the
non-terminating quotient 470.8/3 to 28 significant digits. -/
theorem c1_counterexample :
    (calculate_intrinsic_value 1 1 3).1 ≠
      CalcOutcome.value (1 * (7 + 1 * 100) * 4.4 / 3) := by
  with_unfolding_all decide

/-- Claim C1 (amended): for every eps > 0, growth > 0 and yield ≠ 0
the engine returns the formula value computed in 28-significant-digit
decimal arithmetic; it equals eps * (7 + growth*100) * 4.4 / yield
exactly whenever every intermediate and the quotient are representable
in 28 significant digits — in particular for eps = 2, growth = 0.10,
yield = 4.4 the intrinsic value is exactly 34 and the margin of safety
(value * 0.8) exactly 27.2. -/
theorem c1_formula :
    (∀ eps g y : ℚ, 0 < eps → 0 < g → y ≠ 0 →
      roundDec (g * 100) = g * 100 →
      roundDec (7 + g * 100) = 7 + g * 100 →
      roundDec (eps * (7 + g * 100)) = eps * (7 + g * 100) →
      roundDec (eps * (7 + g * 100) * 4.4) = eps * (7 + g * 100) * 4.4 →
      roundDec (eps * (7 + g * 100) * 4.4 / y) = eps * (7 + g * 100) * 4.4 / y →
      (calculate_intrinsic_value eps g y).1 =
        CalcOutcome.value (eps * (7 + g * 100) * 4.4 / y)) ∧
    (calculate_intrinsic_value 2 0.1 4.4).1 = CalcOutcome.value 34 ∧
    decMul 34 0.8 = 27.2 := by
  refine ⟨?_, by with_unfolding_all decide, by with_unfolding_all decide⟩
  intro eps g y he hg hy r1 r2 r3 r4 r5
  have hguard : ¬ (eps ≤ 0 ∨ g ≤ 0) := by push_neg; exact ⟨he, hg⟩
  rw [calculate_intrinsic_value, if_neg hguard, if_neg hy]
  simp only [decDiv, decMul, decAdd]
  rw [r1, r2, r3, r4, r5]

/-- Witness for C1 (amended) at eps = 3, growth = 2, yield = 5, where
the quotient 2732.4/5 = 546.48 is exactly representable. -/
theorem c1_formula_witness :
    (calculate_intrinsic_value 3 2 5).1 =
      CalcOutcome.value (3 * (7 + 2 * 100) * 4.4 / 5) :=
  c1_formula.1 3 2 5 (by norm_num) (by norm_num) (by norm_num)
    (by with_unfolding_all decide) (by with_unfolding_all decide)
    (by with_unfolding_all decide)
    (Rat.ext (by with_unfolding_all decide) (by with_unfolding_all decide))
    (Rat.ext (by with_unfolding_all decide) (by with_unfolding_all decide))

/-- Counterexample to claim C6 as stated: at eps = 1, growth = 0.10,
yield = 3 the returned intrinsic value is not the exact rational
eps * (7 + 100*growth) * 4.4 / yield — the context division rounds
74.8/3 to 28 significant digits, so rounding is introduced. -/
theorem c6_counterexample :
    (calculate_intrinsic_value 1 0.1 3).1 ≠
      CalcOutcome.value (1 * (7 + 0.1 * 100) * 4.4 / 3) := by
  with_unfolding_all decide

/-- Claim C6 (amended): all computations are decimal (never binary
floating point), with each operation correctly rounded to 28
significant digits: under exactness of the intermediate products the
returned value is the correctly rounded exact quotient, it equals the
exact rational when that is representable, and the margin of safety
then equals exactly 0.8 times it when that product is representable. -/
theorem c6_exact_arithmetic :
    ∀ eps g y : ℚ, 0 < eps → 0 < g → y ≠ 0 →
      roundDec (g * 100) = g * 100 →
      roundDec (7 + g * 100) = 7 + g * 100 →
      roundDec (eps * (7 + g * 100)) = eps * (7 + g * 100) →
      roundDec (eps * (7 + g * 100) * 4.4) = eps * (7 + g * 100) * 4.4 →
      (calculate_intrinsic_value eps g y).1 =
        CalcOutcome.value (roundDec (eps * (7 + g * 100) * 4.4 / y)) ∧
      (roundDec (eps * (7 + g * 100) * 4.4 / y) = eps * (7 + g * 100) * 4.4 / y →
        roundDec (eps * (7 + g * 100) * 4.4 / y * 0.8) =
          eps * (7 + g * 100) * 4.4 / y * 0.8 →
        decMul (roundDec (eps * (7 + g * 100) * 4.4 / y)) 0.8 =
          eps * (7 + g * 100) * 4.4 / y * 0.8) := by
  intro eps g y he hg hy r1 r2 r3 r4
  have hguard : ¬ (eps ≤ 0 ∨ g ≤ 0) := by push_neg; exact ⟨he, hg⟩
  constructor
  · rw [calculate_intrinsic_value, if_neg hguard, if_neg hy]
    simp only [decDiv, decMul, decAdd]
    rw [r1, r2, r3, r4]
  · intro rq rm
    rw [rq]
    simp only [decMul]
    rw [rm]

/-- Witness for C6 (amended) at eps = 1, growth = 0.10, yield = 2: the
value 37.4 and margin 29.92 are exact. -/
theorem c6_exact_arithmetic_witness :
    (calculate_intrinsic_value 1 0.1 2).1 =
      CalcOutcome.value (roundDec (1 * (7 + 0.1 * 100) * 4.4 / 2)) :=
  (c6_exact_arithmetic 1 0.1 2 (by norm_num) (by norm_num) (by norm_num)
    (by with_unfolding_all decide) (by with_unfolding_all decide)
    (by with_unfolding_all decide) (by with_unfolding_all decide)).1

/-- Counterexample to claim C7 as stated: `parse_float` does not strip
only a trailing percent sign — on "%12.5" the described algorithm
fails to parse (nothing), but the source's `str.strip('%')` also
removes the leading percent sign and returns 0.125. -/
theorem c7_counterexample :
    parse_float "%12.5" = some (1/8) ∧ parse_ratio_spec "%12.5" = none := by
  constructor
  · with_unfolding_all decide
  · with_unfolding_all decide

/-- Claim C7 (amended): `parse_float` strips thousands-separator
commas and percent signs from both ends (Python's `strip('%')`, not
only a trailing one), parses the remainder as an exact decimal and
divides it by 100 in context arithmetic — for every printed decimal
decorated with any number of percent signs on either end; in
particular "12.5%" parses to exactly 0.125, and malformed input yields
nothing. -/
theorem c7_parse_ratio :
    (∀ q : ℚ, FiniteDec q → ∀ j k : ℕ,
      parse_float (String.mk
        (List.replicate j '%' ++ decToString q ++ List.replicate k '%')) =
        some (decDiv q 100)) ∧
    parse_float "12.5%" = some (1/8) ∧
    parse_float "abc" = none := by
  refine ⟨?_, by with_unfolding_all decide, by with_unfolding_all decide⟩
  intro q h j k
  exact parse_float_sandwich q h j k

/-- Witness for C7 (amended) at q = 12.5 with one trailing percent
sign: the printed "12.5%" parses to exactly 0.125. -/
theorem c7_parse_ratio_witness :
    parse_float (String.mk
      (List.replicate 0 '%' ++ decToString (25/2) ++ List.replicate 1 '%')) =
      some (decDiv (25/2) 100) :=
  c7_parse_ratio.1 (25/2) ⟨1, by with_unfolding_all decide⟩ 0 1

/-- Claim C8: `parse_stock_price` on a string returns exactly the
numeric value of the string with commas and surrounding whitespace
removed: it agrees with the `Decimal` denotation of the comma-stripped
text, recovers any printed decimal decorated with commas anywhere in
it and whitespace around it, parses "1,234.50" to exactly 1234.50, and
returns nothing on malformed input. -/
theorem c8_parse_price :
    (∀ (st : String) (v : ℚ), decimalOfChars (removeCommas st.data) = some v →
      parse_stock_price (PriceInput.str st) = some v) ∧
    (∀ (q : ℚ) (t : List Char) (a b : ℕ), FiniteDec q → removeCommas t = decToString q →
      parse_stock_price (PriceInput.str
        (String.mk (List.replicate a ' ' ++ t ++ List.replicate b ' '))) = some q) ∧
    parse_stock_price (PriceInput.str "1,234.50") = some (2469/2) ∧
    parse_stock_price (PriceInput.str "abc") = none := by
  refine ⟨?_, ?_, ?_, by with_unfolding_all decide⟩
  · intro st v hv
    show decimalOfChars (trimWs (removeCommas st.data)) = some v
    rw [decimalOfChars_trimWs]
    exact hv
  · intro q t a b h ht
    exact parse_stock_price_sandwich q h t a b ht
  · with_unfolding_all rfl

/-- Witness for C8 at the value 35 written " 3,5 ": commas inside the
digits and surrounding whitespace are stripped. -/
theorem c8_parse_price_witness :
    parse_stock_price (PriceInput.str
      (String.mk (List.replicate 1 ' ' ++ ("3,5").data ++ List.replicate 1 ' '))) =
      some 35 :=
  c8_parse_price.2.1 35 ("3,5").data 1 1 ⟨0, by with_unfolding_all decide⟩
    (by with_unfolding_all decide)

/-- Claim C10: `parse_stock_price` is idempotent on already parsed
values: for every finite decimal d, the orchestrator's second
application — which renders d with `str` and re-parses it — returns
exactly d, never failing and never altering the price. -/
theorem c10_reparse_idempotent : ∀ d : ℚ, FiniteDec d →
    parse_stock_price (PriceInput.dec d) = some d :=
  parse_stock_price_print

/-- Witness for C10 at d = 27.35. -/
theorem c10_reparse_idempotent_witness :
    parse_stock_price (PriceInput.dec (547/20)) = some (547/20) :=
  c10_reparse_idempotent (547/20) ⟨2, by with_unfolding_all decide⟩
